import Mathlib

/-
Verification of the editable-text-region subsystem (src/src/commands/text.ts):
TextBlock, TextPiece, TextBlockFuseChildren, RootMathCommand. Text is modelled
as List Char; every TextPiece instance carries a stable numeric identity
standing for the JS object (and its mirrored DOM text node, which the source
keeps in lockstep with textStr). The document-tree base class, the cursor
object and the rendering surface are external collaborators; where an
operation touches them, the effect on the logical state is modelled from the
spec as noted in the doc comments.
-/

namespace MathquillText

/-- Direction axis of the editor: the two-valued L/R enum. -/
inductive Direction
  | L
  | R
deriving DecidableEq, Repr

/-- The opposite operator on directions (written -dir in the source). -/
def Direction.opp : Direction → Direction
  | .L => .R
  | .R => .L

/-- A TextPiece: a contiguous run of characters with a stable identity
standing for the JS object instance together with its mirrored DOM text node
(whose data the source keeps equal to textStr at every step). -/
structure Piece where
  id : Nat
  text : List Char
deriving DecidableEq, Repr

/-- TextPiece.endChar (line 237): text.charAt(dir === L ? 0 : -1 + text.length).
A JS charAt out of range yields the empty string, so the result is a list of
zero or one characters. -/
def endChar : Direction → List Char → List Char
  | .L, t => t.take 1
  | .R, t => t.drop (t.length - 1)

/-- Removal of the single character at the given end of a text run, as
performed by TextPiece.deleteTowards: at the L end textStr.slice(1), at the R
end textStr.slice(0, -1). -/
def stripEnd : Direction → List Char → List Char
  | .L, t => t.drop 1
  | .R, t => t.take (t.length - 1)

/-- TextBlock.textContents (lines 74-78): fold over the children in
left-to-right order, appending each child's textStr. -/
def contentsOf (ps : List Piece) : List Char :=
  ps.foldl (fun acc p => acc ++ p.text) []

/-- Editing-time view of a TextBlock's children around the cursor. The
children form a doubly linked sequence and the cursor occupies one gap in it,
so the state is the pieces to the cursor's left (nearest first), the pieces to
its right (nearest first), a supply of fresh identities for newly constructed
pieces, the anticursor's directional node pointers (by piece identity, none
standing for a block end) when a selection is active, and the log of strings
handed to the external accessibility announcement queue. -/
structure EditState where
  lhs : List Piece
  rhs : List Piece
  nextId : Nat
  anti : Option (Option Nat × Option Nat)
  aria : List (List Char)
deriving DecidableEq, Repr

/-- All children of the block in left-to-right order. -/
def EditState.pieces (st : EditState) : List Piece :=
  st.lhs.reverse ++ st.rhs

/-- The pieces on the cursor's dir side, nearest first; the head is the
cursor's neighbor pointer on that side. -/
def EditState.side (st : EditState) (dir : Direction) : List Piece :=
  match dir with
  | .L => st.lhs
  | .R => st.rhs

/-- TextPiece.deleteTowards (lines 261-283), invoked by the cursor protocol on
the cursor's dir neighbor. With more than one character, the character at the
end nearest the incoming edge is stripped (slice(1) for dir R, slice(0,-1) for
dir L; the mirrored DOM node gets the matching deleteData) and the deleted
character is queued for announcement. Otherwise the piece removes itself,
cursor[dir] is relinked to the piece's dir sibling, and the whole (one
character) textStr is queued. With no dir neighbor the piece method is never
reached and the state is unchanged. -/
def deleteTowardsOp (dir : Direction) (st : EditState) : EditState :=
  match dir with
  | .R =>
    match st.rhs with
    | [] => st
    | p :: rest =>
      if 1 < p.text.length then
        { st with rhs := { p with text := p.text.drop 1 } :: rest,
                  aria := st.aria ++ [p.text.take 1] }
      else
        { st with rhs := rest, aria := st.aria ++ [p.text] }
  | .L =>
    match st.lhs with
    | [] => st
    | p :: rest =>
      if 1 < p.text.length then
        { st with lhs := { p with text := p.text.take (p.text.length - 1) } :: rest,
                  aria := st.aria ++ [p.text.drop (p.text.length - 1)] }
      else
        { st with lhs := rest, aria := st.aria ++ [p.text] }

/-- TextPiece.moveTowards (lines 241-250), invoked on the cursor's dir
neighbor: the character at the piece's end nearest the cursor migrates onto
the adjacent piece on the cursor's other side (insTextAtDirEnd appends for dir
R, prepends for dir L), a fresh one-character piece being created at the
cursor gap when no such piece exists (new TextPiece(ch).createDir(-dir,
cursor)), and then the piece deletes that character via deleteTowards. -/
def moveTowardsOp (dir : Direction) (st : EditState) : EditState :=
  match dir with
  | .R =>
    match st.rhs with
    | [] => st
    | p :: _ =>
      let ch := endChar .L p.text
      let st1 :=
        match st.lhs with
        | q :: ql => { st with lhs := { q with text := q.text ++ ch } :: ql }
        | [] => { st with lhs := [⟨st.nextId, ch⟩], nextId := st.nextId + 1 }
      deleteTowardsOp .R st1
  | .L =>
    match st.lhs with
    | [] => st
    | p :: _ =>
      let ch := endChar .R p.text
      let st1 :=
        match st.rhs with
        | q :: qr => { st with rhs := { q with text := ch ++ q.text } :: qr }
        | [] => { st with rhs := [⟨st.nextId, ch⟩], nextId := st.nextId + 1 }
      deleteTowardsOp .L st1

/-- TextPiece.selectTowards (lines 285-313), invoked on the cursor's dir
neighbor. Without an anticursor it returns at once. When the anticursor's dir
pointer is this very piece, a fresh one-character boundary piece is inserted
at the cursor gap (createDir(dir, cursor)), the anticursor's dir pointer is
advanced to it and the cursor moves to its dir side; otherwise the character
migrates as in moveTowards, and when the piece is down to one character and
the anticursor's opposite pointer ends exactly here, that pointer is re-aimed
past the piece at its opposite-side sibling. Both branches finish by
delegating to deleteTowards. -/
def selectTowardsOp (dir : Direction) (st : EditState) : EditState :=
  match st.anti with
  | none => st
  | some (aL, aR) =>
    match dir with
    | .R =>
      match st.rhs with
      | [] => st
      | p :: _ =>
        let ch := endChar .L p.text
        if aR = some p.id then
          deleteTowardsOp .R
            { st with lhs := ⟨st.nextId, ch⟩ :: st.lhs,
                      nextId := st.nextId + 1,
                      anti := some (aL, some st.nextId) }
        else
          let st1 :=
            match st.lhs with
            | q :: ql => { st with lhs := { q with text := q.text ++ ch } :: ql }
            | [] => { st with lhs := [⟨st.nextId, ch⟩], nextId := st.nextId + 1 }
          let st2 :=
            { st1 with anti :=
                (if p.text.length = 1 ∧ aL = some p.id then
                  some (st1.lhs.head?.map Piece.id, aR)
                else some (aL, aR)) }
          deleteTowardsOp .R st2
    | .L =>
      match st.lhs with
      | [] => st
      | p :: _ =>
        let ch := endChar .R p.text
        if aL = some p.id then
          deleteTowardsOp .L
            { st with rhs := ⟨st.nextId, ch⟩ :: st.rhs,
                      nextId := st.nextId + 1,
                      anti := some (some st.nextId, aR) }
        else
          let st1 :=
            match st.rhs with
            | q :: qr => { st with rhs := { q with text := ch ++ q.text } :: qr }
            | [] => { st with rhs := [⟨st.nextId, ch⟩], nextId := st.nextId + 1 }
          let st2 :=
            { st1 with anti :=
                (if p.text.length = 1 ∧ aR = some p.id then
                  some (aL, st1.rhs.head?.map Piece.id)
                else some (aL, aR)) }
          deleteTowardsOp .L st2

/-- One cursor-driven segment-level call: moveTowards or selectTowards in a
direction. -/
inductive EditCall
  | move (dir : Direction)
  | select (dir : Direction)
deriving DecidableEq, Repr

/-- Dispatch of one segment-level call on the block state. -/
def applyCall (st : EditState) : EditCall → EditState
  | .move dir => moveTowardsOp dir st
  | .select dir => selectTowardsOp dir st

/-- Left-to-right execution of a sequence of segment-level calls. -/
def applyCalls (st : EditState) (cs : List EditCall) : EditState :=
  cs.foldl applyCall st

/-- A node of the tree surrounding the TextBlock, as seen through the outer
cursor's neighbor pointers: either the block itself or some other node,
identified abstractly. -/
inductive ONode
  | blk
  | node (n : Nat)
deriving DecidableEq, Repr

/-- Position of the cursor relative to the block: inside it at a gap in the
child sequence, or outside in the surrounding block with its left and right
neighbor pointers (none standing for a block end). -/
inductive OCursor
  | inside (gap : Nat)
  | outside (l r : Option ONode)
deriving DecidableEq, Repr

/-- Whether the cursor currently sits inside the block. -/
def OCursor.isInside : OCursor → Bool
  | .inside _ => true
  | .outside _ _ => false

/-- Region-level view of one TextBlock: its child pieces in order, a supply of
fresh piece identities, whether the block is still linked into the document
tree, the block's own left and right siblings in the surrounding tree
(abstract node identities), and the cursor. -/
structure BlockState where
  pieces : List Piece
  nextId : Nat
  present : Bool
  blkL : Option Nat
  blkR : Option Nat
  cursor : OCursor
deriving DecidableEq, Repr

/-- TextBlock.blur (lines 165-173) together with TextBlockFuseChildren (lines
176-192). MathBlock.prototype.blur only touches the rendering surface. With
empty contents the block removes itself from the tree and, when an outer
cursor neighbor pointer is the block (an else-if chain, left checked first),
that one pointer is relinked to the block's sibling on the same side.
Otherwise the children fuse: the mirrored DOM container is normalized into a
single text run (whose data equals the concatenated contents, the mirror being
kept in lockstep with the logical text), the current pieces are all disowned,
and one freshly constructed piece holding the whole concatenation is adopted;
the guard on childless DOM content is kept from the source although contents
are nonempty on this branch. -/
def blurOp (st : BlockState) : BlockState :=
  if contentsOf st.pieces = [] then
    let cur :=
      match st.cursor with
      | .outside l r =>
        if l = some ONode.blk then OCursor.outside (st.blkL.map ONode.node) r
        else if r = some ONode.blk then OCursor.outside l (st.blkR.map ONode.node)
        else OCursor.outside l r
      | c => c
    { st with present := false, cursor := cur }
  else if st.pieces = [] then st
  else
    { st with pieces := [⟨st.nextId, contentsOf st.pieces⟩],
              nextId := st.nextId + 1 }

/-- TextBlock.write (lines 152-153): the region-level write path is a stub
whose body is empty, so it performs no mutation at all. -/
def textBlockWrite (st : BlockState) (_ch : Char) : BlockState := st

/-- TextBlock.replaces (lines 17-22) followed by TextBlock.createLeftOf (lines
36-54). Modelled from the spec for the external tree insertion: the block is
inserted between the outer cursor's neighbors, which become its siblings, and
cursor.insAtRightEnd places the cursor inside at the right end of the (empty)
child sequence. Then every recorded character of replacedText is replayed in
order through the region's write path; the closing sibling notifications and
the reflow bubble touch only the rendering surface. -/
def createLeftOfOp (replacedText : List Char) (outerL outerR : Option Nat) : BlockState :=
  replacedText.foldl textBlockWrite
    { pieces := [], nextId := 0, present := true,
      blkL := outerL, blkR := outerR, cursor := OCursor.inside 0 }

/-- TextBlock.deleteOutOf (lines 148-151): when the block is empty the cursor
is inserted to the right of the block (cursor.insRightOf(this), whose effect
on the cursor's neighbor pointers is modelled from the spec's cursor
protocol: left neighbor the block, right neighbor the block's right sibling);
otherwise nothing happens. -/
def deleteOutOfOp (st : BlockState) : BlockState :=
  if st.pieces = [] then
    { st with cursor := OCursor.outside (some ONode.blk) (st.blkR.map ONode.node) }
  else st

/-- One pass of TextBlock.latexRecursive escaping: .replace of every backslash
by a doubled backslash (the first replace on line 88). -/
def escPass1 : List Char → List Char
  | [] => []
  | c :: t => (if c = '\\' then ['\\', '\\'] else [c]) ++ escPass1 t

/-- Second pass of TextBlock.latexRecursive escaping: .replace of every brace
by a backslash-prefixed brace (the second replace on line 88). -/
def escPass2 : List Char → List Char
  | [] => []
  | c :: t => (if c = '{' ∨ c = '}' then ['\\', c] else [c]) ++ escPass2 t

/-- The composed escaping of TextBlock.latexRecursive line 88: double every
backslash first, then prefix every literal brace with a backslash. -/
def escapeText (cs : List Char) : List Char :=
  escPass2 (escPass1 cs)

/-- Single-character escaping: the combined per-character effect of the two
escape passes. -/
def escChar (c : Char) : List Char :=
  if c = '\\' then ['\\', '\\']
  else if c = '{' ∨ c = '}' then ['\\', c]
  else [c]

/-- Flat per-character escaping of a whole text. -/
def escAll : List Char → List Char
  | [] => []
  | c :: t => escChar c ++ escAll t

/-- TextBlock.latexRecursive (lines 82-93): with nonempty contents it emits
the control sequence, an opening brace, the escaped contents and a closing
brace; with empty contents it emits nothing. -/
def latexOut (ctrlSeq contents : List Char) : List Char :=
  if 0 < contents.length then ctrlSeq ++ '{' :: (escapeText contents ++ ['}'])
  else []

/-- The default control sequence of a TextBlock (line 12). -/
def ctrlSeqText : List Char := ['\\', 't', 'e', 'x', 't']

/-- The whitespace class skipped by Parser.optWhitespace (the JS regex
shorthand for whitespace, restricted to its ASCII members). -/
def isJsSpace (c : Char) : Bool :=
  c = ' ' || c = '\t' || c = '\n' || c = '\r' || c = '\x0b' || c = '\x0c'

/-- The body extraction of TextBlock.parser (lines 56-72): optWhitespace, a
literal opening brace, then the non-greedy regex of line 64 whose lookahead
demands a closing brace as the final character of the input, then that closing
brace. The regex dot matches no line terminator, so a body containing one
fails to match; otherwise the body is everything strictly between the opening
brace and the final closing brace, taken verbatim. -/
def parseTextBody (input : List Char) : Option (List Char) :=
  match input.dropWhile isJsSpace with
  | '{' :: rest =>
    match rest.reverse with
    | '}' :: revBody =>
      if '\n' ∈ revBody ∨ '\r' ∈ revBody then none
      else some revBody.reverse
    | _ => none
  | _ => none

/-- The .map step of TextBlock.parser (lines 66-71): an empty body yields an
empty fragment and the block stays childless, a nonempty body is adopted as
one single TextPiece holding the whole body. -/
def parsePieces (input : List Char) : Option (List Piece) :=
  (parseTextBody input).map (fun body => if body = [] then [] else [⟨0, body⟩])

/-- textContents of the region produced by a successful parse. -/
def parsedContents (input : List Char) : Option (List Char) :=
  (parsePieces input).map contentsOf

/-- The sample region text of the round-trip property: a, backslash, b,
opening brace, c, closing brace. -/
def sampleText : List Char := ['a', '\\', 'b', '{', 'c', '}']

/-- Cursor-and-children view of the RootMathCommand's single child block: the
block's children in order (abstract node identities) and the cursor's gap
position inside the block. -/
structure RMCState where
  children : List Nat
  gap : Nat
deriving DecidableEq, Repr

/-- Outcome of one character written into the RootMathCommand's child block:
either the character is handed to the ordinary MathBlock write path, or the
cursor exits to the right or to the left of the embedded expression, or the
empty expression deletes itself and a literal escaped dollar symbol is
inserted in its place. -/
inductive RMCOutcome
  | wroteMath (ch : Char)
  | exitRight
  | exitLeft
  | deleteSelfInsertDollar
deriving DecidableEq, Repr

/-- The overridden write of the RootMathCommand's child block (lines 392-401):
a character other than the mode-switch dollar goes to the ordinary math write;
a dollar on an empty block deletes the command and inserts an escaped dollar;
otherwise, with no right neighbor the cursor exits to the command's right,
with a right neighbor but no left neighbor it exits to the command's left, and
with neighbors on both sides the dollar goes to the ordinary math write. -/
def rmcWrite (st : RMCState) (ch : Char) : RMCOutcome :=
  if ch ≠ '$' then .wroteMath ch
  else if st.children = [] then .deleteSelfInsertDollar
  else if st.gap = st.children.length then .exitRight
  else if st.gap = 0 then .exitLeft
  else .wroteMath ch

/-- Whether the cursor inside the RootMathCommand block has a right
neighbor. -/
def RMCState.hasRightNbr (st : RMCState) : Prop :=
  st.gap < st.children.length

/-- Whether the cursor inside the RootMathCommand block has a left
neighbor. -/
def RMCState.hasLeftNbr (st : RMCState) : Prop :=
  0 < st.gap

/-- Example block for the witnesses: empty region, cursor just left of it,
left sibling node 7, no right sibling. -/
def blockEx : BlockState :=
  { pieces := [], nextId := 3, present := true,
    blkL := some 7, blkR := none, cursor := OCursor.outside (some ONode.blk) none }

/-- Example empty block with the cursor inside it. -/
def blockEmptyEx : BlockState :=
  { pieces := [], nextId := 0, present := true,
    blkL := none, blkR := none, cursor := OCursor.inside 0 }

/-- Example editing state: one piece holding x, cursor at the right end. -/
def editEx : EditState :=
  { lhs := [⟨0, ['x']⟩], rhs := [], nextId := 1, anti := none, aria := [] }

/-- Example state of the RootMathCommand block: one child, cursor at the right
end. -/
def rmcEx : RMCState := ⟨[0], 1⟩

/-- TextPiece.splitRight (lines 226-235) of the piece p sitting between the
pieces before and rest of its parent region: a new piece holding
textStr.slice(i) is constructed with a fresh identity and adopted between p
and p's right sibling (the mirrored DOM node being split at the same offset),
then the receiver keeps textStr.slice(0, i). -/
def splitRightIn (nid i : Nat) (before : List Piece) (p : Piece)
    (rest : List Piece) : List Piece :=
  before ++ { p with text := p.text.take i } :: (⟨nid, p.text.drop i⟩ : Piece) :: rest

/-- Example editing state: cursor at the left end, one piece holding ab. -/
def editEx2 : EditState :=
  { lhs := [], rhs := [⟨5, ['a', 'b']⟩], nextId := 6, anti := none, aria := [] }

/-- The fold of textContents with an arbitrary accumulator. -/
theorem contentsOf_aux (ps : List Piece) :
    ∀ acc : List Char, ps.foldl (fun acc p => acc ++ p.text) acc = acc ++ contentsOf ps := by
  induction ps with
  | nil => intro acc; simp [contentsOf]
  | cons p t ih =>
    intro acc
    simp only [contentsOf, List.foldl_cons, List.nil_append] at ih ⊢
    rw [ih, ih p.text, List.append_assoc]

@[simp]
theorem contentsOf_nil : contentsOf [] = [] := rfl

@[simp]
theorem contentsOf_cons (p : Piece) (ps : List Piece) :
    contentsOf (p :: ps) = p.text ++ contentsOf ps := by
  simp only [contentsOf, List.foldl_cons, List.nil_append]
  exact contentsOf_aux ps p.text

@[simp]
theorem contentsOf_append (l1 l2 : List Piece) :
    contentsOf (l1 ++ l2) = contentsOf l1 ++ contentsOf l2 := by
  induction l1 with
  | nil => simp
  | cons p t ih => simp [ih]

@[simp]
theorem take_drop_append (n : Nat) (t X : List Char) :
    t.take n ++ (t.drop n ++ X) = t ++ X := by
  rw [← List.append_assoc, List.take_append_drop]

@[simp]
theorem take_one_tail_append (t X : List Char) :
    t.take 1 ++ (t.tail ++ X) = t ++ X := by
  cases t <;> simp

@[simp]
theorem take_one_tail (t : List Char) : t.take 1 ++ t.tail = t := by
  cases t <;> simp

theorem drop_one_of_short (t : List Char) (h : t.length ≤ 1) : t.drop 1 = [] := by
  apply List.drop_eq_nil_of_le
  omega

theorem take_pred_of_short (t : List Char) (h : t.length ≤ 1) :
    t.take (t.length - 1) = [] := by
  have : t.length - 1 = 0 := by omega
  simp [this]

/-- Contents after deleteTowards in direction R on the cursor's right
neighbor: whatever the branch, the piece's text loses its first character. -/
theorem contents_delete_R (st : EditState) (p : Piece) (rest : List Piece)
    (h : st.rhs = p :: rest) :
    contentsOf (deleteTowardsOp .R st).pieces =
      contentsOf st.lhs.reverse ++ (p.text.drop 1 ++ contentsOf rest) := by
  obtain ⟨l, r, n, a, ar⟩ := st
  simp only at h
  subst h
  simp only [deleteTowardsOp, EditState.pieces]
  by_cases hlen : 1 < p.text.length
  · simp [hlen]
  · simp [hlen, drop_one_of_short p.text (by omega)]

/-- Contents after deleteTowards in direction L on the cursor's left neighbor:
whatever the branch, the piece's text loses its last character. -/
theorem contents_delete_L (st : EditState) (p : Piece) (rest : List Piece)
    (h : st.lhs = p :: rest) :
    contentsOf (deleteTowardsOp .L st).pieces =
      contentsOf rest.reverse ++ (p.text.take (p.text.length - 1) ++ contentsOf st.rhs) := by
  obtain ⟨l, r, n, a, ar⟩ := st
  simp only at h
  subst h
  simp only [deleteTowardsOp, EditState.pieces]
  by_cases hlen : 1 < p.text.length
  · simp [hlen]
  · simp [hlen, take_pred_of_short p.text (by omega)]

/-- One moveTowards call preserves the concatenated contents of the block. -/
theorem contents_move (dir : Direction) (st : EditState) :
    contentsOf (moveTowardsOp dir st).pieces = contentsOf st.pieces := by
  obtain ⟨l, r, n, a, ar⟩ := st
  cases dir with
  | R =>
    cases r with
    | nil => rfl
    | cons p pr =>
      cases l with
      | nil =>
        simp only [moveTowardsOp]
        rw [contents_delete_R _ p pr rfl]
        simp [EditState.pieces, endChar, List.take_append_drop]
      | cons q ql =>
        simp only [moveTowardsOp]
        rw [contents_delete_R _ p pr rfl]
        simp [EditState.pieces, endChar, List.take_append_drop]
  | L =>
    cases l with
    | nil => rfl
    | cons p pl =>
      cases r with
      | nil =>
        simp only [moveTowardsOp]
        rw [contents_delete_L _ p pl rfl]
        simp [EditState.pieces, endChar, List.take_append_drop]
      | cons q qr =>
        simp only [moveTowardsOp]
        rw [contents_delete_L _ p pl rfl]
        simp [EditState.pieces, endChar, List.take_append_drop]

/-- One selectTowards call preserves the concatenated contents of the
block. -/
theorem contents_select (dir : Direction) (st : EditState) :
    contentsOf (selectTowardsOp dir st).pieces = contentsOf st.pieces := by
  obtain ⟨l, r, n, a, ar⟩ := st
  cases a with
  | none => rfl
  | some pair =>
    obtain ⟨aL, aR⟩ := pair
    cases dir with
    | R =>
      cases r with
      | nil => rfl
      | cons p pr =>
        by_cases hb : aR = some p.id
        · simp only [selectTowardsOp]
          rw [if_pos hb]
          rw [contents_delete_R _ p pr rfl]
          simp [EditState.pieces, endChar, List.take_append_drop]
        · cases l with
          | nil =>
            simp only [selectTowardsOp]
            rw [if_neg hb]
            rw [contents_delete_R _ p pr rfl]
            simp [EditState.pieces, endChar, List.take_append_drop]
          | cons q ql =>
            simp only [selectTowardsOp]
            rw [if_neg hb]
            rw [contents_delete_R _ p pr rfl]
            simp [EditState.pieces, endChar, List.take_append_drop]
    | L =>
      cases l with
      | nil => rfl
      | cons p pl =>
        by_cases hb : aL = some p.id
        · simp only [selectTowardsOp]
          rw [if_pos hb]
          rw [contents_delete_L _ p pl rfl]
          simp [EditState.pieces, endChar, List.take_append_drop]
        · cases r with
          | nil =>
            simp only [selectTowardsOp]
            rw [if_neg hb]
            rw [contents_delete_L _ p pl rfl]
            simp [EditState.pieces, endChar, List.take_append_drop]
          | cons q qr =>
            simp only [selectTowardsOp]
            rw [if_neg hb]
            rw [contents_delete_L _ p pl rfl]
            simp [EditState.pieces, endChar, List.take_append_drop]

/-- A sequence of pieces with nonempty texts and empty concatenation is
empty. -/
theorem pieces_nil_of_contents_nil (ps : List Piece)
    (hc : contentsOf ps = []) (hne : ∀ p ∈ ps, p.text ≠ []) : ps = [] := by
  cases ps with
  | nil => rfl
  | cons p t =>
    rw [contentsOf_cons] at hc
    rcases List.append_eq_nil.mp hc with ⟨h1, _⟩
    exact absurd h1 (hne p (by simp))

/-- One leftward deleteTowards with the cursor at the right end of the block:
the right side stays empty, pieces stay nonempty, and the contents lose
exactly one character. -/
theorem delete_L_step (st : EditState) (hr : st.rhs = [])
    (hne : ∀ p ∈ st.pieces, p.text ≠ []) (hl : st.lhs ≠ []) :
    (deleteTowardsOp .L st).rhs = [] ∧
    (∀ p ∈ (deleteTowardsOp .L st).pieces, p.text ≠ []) ∧
    (contentsOf (deleteTowardsOp .L st).pieces).length + 1 =
      (contentsOf st.pieces).length := by
  obtain ⟨l, r, n, a, ar⟩ := st
  simp only at hr hl
  subst hr
  cases l with
  | nil => exact absurd rfl hl
  | cons p pl =>
    have hne' : ∀ q ∈ p :: pl, q.text ≠ [] := by
      intro q hq
      exact hne q (by simpa [EditState.pieces, or_comm] using hq)
    have hpne := hne' p (by simp)
    have hplen : 1 ≤ p.text.length := by
      cases hp : p.text with
      | nil => exact absurd hp hpne
      | cons c t => simp [hp]
    simp only [deleteTowardsOp]
    by_cases hlen : 1 < p.text.length
    · rw [if_pos hlen]
      refine ⟨rfl, ?_, ?_⟩
      · intro q hq
        simp only [EditState.pieces, List.append_nil, List.mem_reverse] at hq
        rcases List.mem_cons.mp hq with hq1 | hq2
        · subst hq1
          simp only [ne_eq, ← List.length_eq_zero, List.length_take]
          omega
        · exact hne' q (List.mem_cons_of_mem _ hq2)
      · have hstrip : (p.text.take (p.text.length - 1)).length = p.text.length - 1 := by
          rw [List.length_take]
          exact min_eq_left (Nat.sub_le _ _)
        simp [EditState.pieces, hstrip]
        omega
    · rw [if_neg hlen]
      refine ⟨rfl, ?_, ?_⟩
      · intro q hq
        simp only [EditState.pieces, List.append_nil, List.mem_reverse] at hq
        exact hne' q (List.mem_cons_of_mem _ hq)
      · simp [EditState.pieces]
        omega

/-- Iterating leftward deleteTowards once per character, starting with the
cursor at the right end of a block of nonempty pieces, empties the block. -/
theorem delete_all (k : Nat) :
    ∀ st : EditState, st.rhs = [] → (∀ p ∈ st.pieces, p.text ≠ []) →
      (contentsOf st.pieces).length = k →
      ((deleteTowardsOp .L)^[k] st).pieces = [] := by
  induction k with
  | zero =>
    intro st hr hne hlen
    have := pieces_nil_of_contents_nil st.pieces (List.length_eq_zero.mp hlen) hne
    simpa using this
  | succ k ih =>
    intro st hr hne hlen
    have hl : st.lhs ≠ [] := by
      intro hcon
      have : st.pieces = [] := by
        simp [EditState.pieces, hcon, hr]
      rw [this] at hlen
      simp at hlen
    obtain ⟨h1, h2, h3⟩ := delete_L_step st hr hne hl
    rw [Function.iterate_succ_apply]
    exact ih _ h1 h2 (by omega)

/-- Position lookup in a list split around one element. -/
theorem get_append_length {α : Type} (l1 : List α) (x : α) (l2 : List α) :
    (l1 ++ x :: l2)[l1.length]? = some x := by
  induction l1 with
  | nil => simp
  | cons a t ih => simpa using ih

/-- Position lookup one past a list split around two elements. -/
theorem get_append_length_succ {α : Type} (l1 : List α) (x y : α) (l2 : List α) :
    (l1 ++ x :: y :: l2)[l1.length + 1]? = some y := by
  induction l1 with
  | nil => simp
  | cons a t ih => simpa using ih

/-- C1: replaces(s) followed by createLeftOf replays every character of s
through TextBlock.write, but that write path is an empty stub (lines 152-153),
so the region ends up with no children and empty contents, and the subsequent
blur removes it instead of leaving one segment with textContents s. Evaluated
at the failing input s equal to the one-character string a. -/
theorem textBlock_write_stub_drops_replaced_text :
    contentsOf (createLeftOfOp ['a'] none none).pieces = [] ∧
    (blurOp (createLeftOfOp ['a'] none none)).present = false ∧
    (blurOp (createLeftOfOp ['a'] none none)).pieces = [] ∧
    ¬ contentsOf (blurOp (createLeftOfOp ['a'] none none)).pieces = ['a'] := by
  decide

/-- C2: blur with empty contents removes the region from the tree and relinks
the outer cursor's neighbor pointer past it (left pointer checked first); blur
with nonempty contents fuses the children into exactly one freshly constructed
piece holding the full concatenation of the prior pieces; and deleting every
character of the region one at a time via deleteTowards, ending at an empty
region, followed by blur, removes the region from the tree. -/
theorem textBlock_blur_spec (b : BlockState) (es : EditState) :
    (contentsOf b.pieces = [] →
       (blurOp b).present = false ∧
       (∀ (r : Option ONode), b.cursor = OCursor.outside (some ONode.blk) r →
          (blurOp b).cursor = OCursor.outside (b.blkL.map ONode.node) r) ∧
       (∀ (l : Option ONode), l ≠ some ONode.blk →
          b.cursor = OCursor.outside l (some ONode.blk) →
          (blurOp b).cursor = OCursor.outside l (b.blkR.map ONode.node))) ∧
    (¬ contentsOf b.pieces = [] →
       (blurOp b).pieces = [⟨b.nextId, contentsOf b.pieces⟩] ∧
       (blurOp b).nextId = b.nextId + 1 ∧
       (blurOp b).present = b.present) ∧
    (es.rhs = [] → (∀ p ∈ es.pieces, p.text ≠ []) →
       b.pieces = ((deleteTowardsOp Direction.L)^[(contentsOf es.pieces).length] es).pieces →
       b.pieces = [] ∧ (blurOp b).present = false) := by
  refine ⟨?_, ?_, ?_⟩
  · intro hc
    unfold blurOp
    rw [if_pos hc]
    refine ⟨rfl, ?_, ?_⟩
    · intro r hcur
      rw [hcur]
      simp
    · intro l hl hcur
      rw [hcur]
      simp [hl]
  · intro hc
    have hp : ¬ b.pieces = [] := fun hnil => hc (by rw [hnil]; rfl)
    unfold blurOp
    rw [if_neg hc, if_neg hp]
    exact ⟨rfl, rfl, rfl⟩
  · intro hr hne hbp
    have hnil : b.pieces = [] := by
      rw [hbp, delete_all (contentsOf es.pieces).length es hr hne rfl]
    have hc : contentsOf b.pieces = [] := by rw [hnil]; rfl
    refine ⟨hnil, ?_⟩
    unfold blurOp
    rw [if_pos hc]

/-- Witness for the blur specification at a concrete empty block with the
cursor just right of it and at a concrete one-character editing state. -/
theorem textBlock_blur_spec_witness :
    (blurOp blockEx).present = false ∧
    (blurOp blockEx).cursor = OCursor.outside (some (ONode.node 7)) none ∧
    blockEx.pieces = [] := by
  have h := textBlock_blur_spec blockEx editEx
  have hc : contentsOf blockEx.pieces = [] := by decide
  exact ⟨(h.1 hc).1, (h.1 hc).2.1 none rfl,
    (h.2.2 rfl (by decide) (by decide)).1⟩

/-- C3 counterexample: serializing the region holding the sample text indeed
produces the escaped latex form, but parsing that same bracketed body back
yields the escaped text verbatim, not the original sample text, because the
parser performs no unescaping. -/
theorem text_roundtrip_cex :
    latexOut ctrlSeqText sampleText =
      ['\\', 't', 'e', 'x', 't', '{', 'a', '\\', '\\', 'b', '\\', '{', 'c', '\\', '}', '}'] ∧
    ¬ parsedContents ('{' :: (escapeText sampleText ++ ['}'])) = some sampleText := by
  decide

/-- C3 amended: serializing the sample region produces the escaped latex form,
and parsing the same bracketed body back returns the escaped body verbatim as
the region's contents. -/
theorem text_roundtrip_spec :
    latexOut ctrlSeqText sampleText =
      ['\\', 't', 'e', 'x', 't', '{', 'a', '\\', '\\', 'b', '\\', '{', 'c', '\\', '}', '}'] ∧
    parsedContents ('{' :: (escapeText sampleText ++ ['}'])) = some (escapeText sampleText) ∧
    escapeText sampleText = ['a', '\\', '\\', 'b', '\\', '{', 'c', '\\', '}'] := by
  decide

/-- The second escaping pass distributes over concatenation. -/
theorem escPass2_append (a b : List Char) :
    escPass2 (a ++ b) = escPass2 a ++ escPass2 b := by
  induction a with
  | nil => rfl
  | cons c t ih => simp [escPass2, ih]

/-- The two-pass escaping equals the flat per-character escaping: doubling
backslashes first and brace-escaping second means the backslashes introduced
for braces are not doubled again. -/
theorem escapeText_eq_escAll (cs : List Char) : escapeText cs = escAll cs := by
  induction cs with
  | nil => rfl
  | cons c t ih =>
    simp only [escapeText, escPass1] at ih ⊢
    rw [escPass2_append, ih]
    congr 1
    by_cases h1 : c = '\\'
    · subst h1
      decide
    · simp [escPass2, escChar, h1]

/-- C4: serialization emits the control sequence followed by the contents in
braces, the contents escaped character by character (a backslash becomes a
doubled backslash, a brace becomes a backslash-prefixed brace, everything else
stays), and emits nothing at all when the contents are empty. -/
theorem textBlock_serialize_spec (ctrlSeq contents : List Char) :
    latexOut ctrlSeq contents =
      if contents = [] then []
      else ctrlSeq ++ '{' :: (escAll contents ++ ['}']) := by
  cases contents with
  | nil => simp [latexOut]
  | cons c t => simp [latexOut, escapeText_eq_escAll]

/-- C5: deleteTowards removes exactly one character from the end of the piece
nearest the incoming edge. With more than one character the piece stays, with
that one character stripped from the correct end and reported to the
accessibility queue, the cursor's other side untouched; with exactly one
character the piece is removed, the cursor's neighbor pointer on side dir is
relinked to what was the piece's dir-side sequence, and the character is
reported. -/
theorem textPiece_deleteTowards_spec (dir : Direction) (st : EditState)
    (p : Piece) (rest : List Piece) (h : st.side dir = p :: rest) :
    (1 < p.text.length →
       (deleteTowardsOp dir st).side dir =
         { p with text := stripEnd dir.opp p.text } :: rest ∧
       (deleteTowardsOp dir st).side dir.opp = st.side dir.opp ∧
       (deleteTowardsOp dir st).aria = st.aria ++ [endChar dir.opp p.text]) ∧
    (p.text.length = 1 →
       (deleteTowardsOp dir st).side dir = rest ∧
       (deleteTowardsOp dir st).side dir.opp = st.side dir.opp ∧
       (deleteTowardsOp dir st).aria = st.aria ++ [p.text]) := by
  obtain ⟨l, r, n, a, ar⟩ := st
  cases dir with
  | R =>
    simp only [EditState.side] at h
    subst h
    simp only [deleteTowardsOp]
    constructor
    · intro hlen
      rw [if_pos hlen]
      exact ⟨rfl, rfl, rfl⟩
    · intro hlen
      rw [if_neg (by omega)]
      exact ⟨rfl, rfl, rfl⟩
  | L =>
    simp only [EditState.side] at h
    subst h
    simp only [deleteTowardsOp]
    constructor
    · intro hlen
      rw [if_pos hlen]
      exact ⟨rfl, rfl, rfl⟩
    · intro hlen
      rw [if_neg (by omega)]
      exact ⟨rfl, rfl, rfl⟩

/-- Witness for the deleteTowards specification: deleting rightwards into a
two-character piece strips its first character and announces it. -/
theorem textPiece_deleteTowards_spec_witness :
    (deleteTowardsOp .R editEx2).side .R = [⟨5, ['b']⟩] ∧
    (deleteTowardsOp .R editEx2).aria = [['a']] := by
  have h := (textPiece_deleteTowards_spec .R editEx2 ⟨5, ['a', 'b']⟩ [] rfl).1
    (by decide)
  exact ⟨h.1, h.2.2⟩

/-- C6: any sequence of single-character moveTowards and selectTowards calls
leaves the concatenated contents of the region unchanged: character migration
between adjacent pieces preserves total content. -/
theorem text_traversal_preserves_contents (cs : List EditCall) (st : EditState) :
    contentsOf (applyCalls st cs).pieces = contentsOf st.pieces := by
  induction cs generalizing st with
  | nil => rfl
  | cons c t ih =>
    have hstep : contentsOf (applyCall st c).pieces = contentsOf st.pieces := by
      cases c with
      | move dir => exact contents_move dir st
      | select dir => exact contents_select dir st
    calc contentsOf (applyCalls st (c :: t)).pieces
        = contentsOf (applyCalls (applyCall st c) t).pieces := rfl
      _ = contentsOf (applyCall st c).pieces := ih _
      _ = contentsOf st.pieces := hstep

/-- C7: splitting a piece at offset i with 0 less than i less than the text
length leaves the receiver with the prefix, links a new live piece with the
suffix immediately to the receiver's right in the same region, both pieces
nonempty, with the concatenation of the two equal to the original text and the
region's total contents unchanged. -/
theorem textPiece_splitRight_spec (nid i : Nat) (before rest : List Piece)
    (p : Piece) (h1 : 0 < i) (h2 : i < p.text.length) :
    (splitRightIn nid i before p rest)[before.length]? =
      some { p with text := p.text.take i } ∧
    (splitRightIn nid i before p rest)[before.length + 1]? =
      some (⟨nid, p.text.drop i⟩ : Piece) ∧
    p.text.take i ++ p.text.drop i = p.text ∧
    p.text.take i ≠ [] ∧
    p.text.drop i ≠ [] ∧
    contentsOf (splitRightIn nid i before p rest) = contentsOf (before ++ p :: rest) := by
  refine ⟨get_append_length before _ _, get_append_length_succ before _ _ _,
    List.take_append_drop i p.text, ?_, ?_, ?_⟩
  · have hlt : (p.text.take i).length = i := by
      rw [List.length_take]
      exact min_eq_left (le_of_lt h2)
    intro hcon
    rw [hcon] at hlt
    simp at hlt
    omega
  · have hld : (p.text.drop i).length = p.text.length - i := by
      simp [List.length_drop]
    intro hcon
    rw [hcon] at hld
    simp at hld
    omega
  · simp [splitRightIn]

/-- Witness for the split specification: splitting the two-character piece ab
at offset 1. -/
theorem textPiece_splitRight_spec_witness :
    (splitRightIn 9 1 [] ⟨4, ['a', 'b']⟩ [])[0]? = some (⟨4, ['a']⟩ : Piece) ∧
    (splitRightIn 9 1 [] ⟨4, ['a', 'b']⟩ [])[1]? = some (⟨9, ['b']⟩ : Piece) := by
  have h := textPiece_splitRight_spec 9 1 [] [] ⟨4, ['a', 'b']⟩ (by decide) (by decide)
  exact ⟨h.1, h.2.1⟩

/-- C8 counterexample: with a nonempty embedded expression and the cursor at
its right end, so that there is no right neighbor, writing the mode-switch
dollar exits to the right of the expression, not to its left as the claim
states. -/
theorem rootMathCommand_write_dollar_cex :
    rmcEx.children ≠ [] ∧ rmcEx.gap = rmcEx.children.length ∧
    rmcWrite rmcEx '$' = RMCOutcome.exitRight ∧
    ¬ rmcWrite rmcEx '$' = RMCOutcome.exitLeft := by
  decide

/-- C8 amended: a non-dollar character goes to the ordinary math write path; a
dollar on an empty expression deletes it and inserts the escaped dollar
symbol; on a nonempty expression the cursor exits to the right when it has no
right neighbor inside the expression, exits to the left when it has a right
neighbor but no left neighbor, and with neighbors on both sides the dollar is
written through the ordinary math write path. -/
theorem rootMathCommand_write_spec (st : RMCState) (ch : Char) :
    (ch ≠ '$' → rmcWrite st ch = RMCOutcome.wroteMath ch) ∧
    (st.children = [] → rmcWrite st '$' = RMCOutcome.deleteSelfInsertDollar) ∧
    (st.children ≠ [] → st.gap = st.children.length →
       rmcWrite st '$' = RMCOutcome.exitRight) ∧
    (st.children ≠ [] → st.gap ≠ st.children.length → st.gap = 0 →
       rmcWrite st '$' = RMCOutcome.exitLeft) ∧
    (st.children ≠ [] → st.gap ≠ st.children.length → st.gap ≠ 0 →
       rmcWrite st '$' = RMCOutcome.wroteMath '$') := by
  refine ⟨?_, ?_, ?_, ?_, ?_⟩
  · intro h
    simp [rmcWrite, h]
  · intro h
    simp [rmcWrite, h]
  · intro h1 h2
    simp [rmcWrite, h1, h2]
  · intro h1 h2 h3
    have h4 : st.children.length ≠ 0 := by
      simpa [List.length_eq_zero] using h1
    simp [rmcWrite, h1, h2, h3, Ne.symm h4]
  · intro h1 h2 h3
    simp [rmcWrite, h1, h2, h3]

/-- Witness for the mode-switch write specification: an ordinary character on
the example state goes to the math write path. -/
theorem rootMathCommand_write_spec_witness :
    rmcWrite rmcEx 'x' = RMCOutcome.wroteMath 'x' :=
  (rootMathCommand_write_spec rmcEx 'x').1 (by decide)

/-- C9 counterexample: deleteOutOf on an empty region does change the state,
and it leaves the cursor outside the region, immediately to its right, not
just inside it as the claim states. -/
theorem textBlock_deleteOutOf_cex :
    (deleteOutOfOp blockEmptyEx).cursor.isInside = false ∧
    ¬ deleteOutOfOp blockEmptyEx = blockEmptyEx := by
  decide

/-- C9 amended: deleteOutOf is a no-op unless the region is empty; when the
region is empty the cursor is placed immediately to the right of the region,
outside it, with the region's contents and tree presence untouched, so a
backspace or delete at the boundary of a non-empty region never unwraps
it. -/
theorem textBlock_deleteOutOf_spec (st : BlockState) :
    (st.pieces ≠ [] → deleteOutOfOp st = st) ∧
    (st.pieces = [] →
       (deleteOutOfOp st).cursor =
         OCursor.outside (some ONode.blk) (st.blkR.map ONode.node) ∧
       (deleteOutOfOp st).cursor.isInside = false ∧
       (deleteOutOfOp st).pieces = st.pieces ∧
       (deleteOutOfOp st).present = st.present) := by
  constructor
  · intro h
    simp [deleteOutOfOp, h]
  · intro h
    simp [deleteOutOfOp, h, OCursor.isInside]

/-- Witness for the deleteOutOf specification at the concrete empty block. -/
theorem textBlock_deleteOutOf_spec_witness :
    (deleteOutOfOp blockEmptyEx).cursor = OCursor.outside (some ONode.blk) none :=
  ((textBlock_deleteOutOf_spec blockEmptyEx).2 rfl).1

/-- C10: selectTowards with no anticursor on the cursor returns immediately,
leaving the pieces, the cursor sides, the announcement log and everything else
unchanged. -/
theorem textPiece_selectTowards_noAnticursor (dir : Direction) (st : EditState)
    (h : st.anti = none) : selectTowardsOp dir st = st := by
  obtain ⟨l, r, n, a, ar⟩ := st
  simp only at h
  subst h
  rfl

/-- Witness for the no-anticursor selectTowards specification. -/
theorem textPiece_selectTowards_noAnticursor_witness :
    selectTowardsOp .R editEx = editEx :=
  textPiece_selectTowards_noAnticursor .R editEx rfl

end MathquillText
